import Mathlib

set_option maxHeartbeats 1600000

/-!
Shallow embedding of `src/main.py` (Lassiter lead engine).

Conventions used throughout:
* Python strings are Lean `String`s; per-character work happens on `String.data : List Char`.
* Python `None` for a string-valued field is `Option.none`; Python truthiness of a
  string field (`None` and `""` are falsy) is `truthyS` / `truthyO`.
* Network effects are explicit oracle parameters: `web : String → Option String`
  models `requests.get` on a page URL (`none` covers timeouts, exceptions and
  HTTP status >= 400, all of which `try_fetch_contact_page` absorbs), and
  `search : Nat → String → Except String (List Item)` models the effectful
  `serpapi_search` call, indexed by a running call counter so that successive
  network calls may return different results; `.error` models a raised
  requests exception (timeout / raise_for_status), which `run_daily` does not catch.
* `datetime.utcnow().strftime("%j")` is the explicit `day_index` parameter;
  `utcnow().isoformat()` timestamps are irrelevant to every claim and dropped.
* The sqlite `leads` table is a `List Row`; `INSERT OR IGNORE` under
  `UNIQUE(niche, website, email, run_date)` follows SQLite semantics where a
  NULL column value is distinct from every value including NULL.
-/

def lowerChar (c : Char) : Char := c.toLower

def isSpaceChar (c : Char) : Bool :=
  c = Char.ofNat 32 || c = Char.ofNat 9 || c = Char.ofNat 10 ||
  c = Char.ofNat 13 || c = Char.ofNat 11 || c = Char.ofNat 12

/-- Python substring test `needle in hay` over char lists. -/
def containsSub (needle : List Char) : List Char → Bool
  | [] => needle.isEmpty
  | c :: t => needle.isPrefixOf (c :: t) || containsSub needle t

/-- Python `str.strip()` (whitespace trim at both ends). -/
def stripChars (l : List Char) : List Char :=
  ((l.dropWhile isSpaceChar).reverse.dropWhile isSpaceChar).reverse

/-- Remove everything from the first occurrence of `c` to the end
(models `re.sub(r"c.*$", "", url)` on inputs without newlines). -/
def cutFrom (c : Char) (l : List Char) : List Char := l.takeWhile (fun x => x ≠ c)

/-- `normalize_url` from src/main.py: strip, drop `#...`, drop `?...`, lowercase. -/
def normalize_url (url : String) : String :=
  String.mk ((cutFrom (Char.ofNat 63) (cutFrom (Char.ofNat 35) (stripChars url.data))).map lowerChar)

/-! ### A small regular-expression engine (Brzozowski derivatives)

Used to model the two `re` patterns `EMAIL_RE` and `PHONE_RE` of src/main.py. -/

inductive RE where
  | emp : RE
  | eps : RE
  | cls : (Char → Bool) → RE
  | seq : RE → RE → RE
  | alt : RE → RE → RE
  | star : RE → RE

def RE.nullable : RE → Bool
  | .emp => false
  | .eps => true
  | .cls _ => false
  | .seq a b => a.nullable && b.nullable
  | .alt a b => a.nullable || b.nullable
  | .star _ => true

def RE.deriv : RE → Char → RE
  | .emp, _ => .emp
  | .eps, _ => .emp
  | .cls p, c => if p c then .eps else .emp
  | .seq a b, c => if a.nullable then .alt (.seq (a.deriv c) b) (b.deriv c) else .seq (a.deriv c) b
  | .alt a b, c => .alt (a.deriv c) (b.deriv c)
  | .star a, c => .seq (a.deriv c) (.star a)

def reAccepts (r : RE) (l : List Char) : Bool := (l.foldl RE.deriv r).nullable

def RE.plus (r : RE) : RE := .seq r (.star r)

def RE.opt (r : RE) : RE := .alt .eps r

def RE.chr (c : Char) : RE := .cls (fun x => x = c)

def RE.rep (r : RE) : Nat → RE
  | 0 => .eps
  | n + 1 => .seq r (RE.rep r n)

/-- `[A-Z0-9._%+-]` with `re.IGNORECASE`. -/
def emailLocalChar (c : Char) : Bool :=
  c.isAlpha || c.isDigit || ['.', '_', '%', '+', '-'].contains c

/-- `[A-Z0-9.-]` with `re.IGNORECASE`. -/
def emailDomChar (c : Char) : Bool := c.isAlpha || c.isDigit || c = '.' || c = '-'

/-- `EMAIL_RE = [A-Z0-9._%+-]+@[A-Z0-9.-]+\.[A-Z]{2,}` (IGNORECASE). -/
def emailRE : RE :=
  let alpha : RE := .cls (fun c => c.isAlpha)
  let tld : RE := .seq alpha (RE.plus alpha)
  .seq (RE.plus (.cls emailLocalChar))
    (.seq (RE.chr '@') (.seq (RE.plus (.cls emailDomChar)) (.seq (RE.chr '.') tld)))

/-- `[\s\-\.]` separator class of `PHONE_RE`. -/
def phoneSepChar (c : Char) : Bool := isSpaceChar c || c = '-' || c = '.'

/-- `PHONE_RE = (\+?1[\s\-\.]?)?\(?\d{3}\)?[\s\-\.]?\d{3}[\s\-\.]?\d{4}`. -/
def phoneRE : RE :=
  let digit : RE := .cls (fun c => c.isDigit)
  let sep : RE := RE.opt (.cls phoneSepChar)
  let country : RE := RE.opt (.seq (RE.opt (RE.chr '+')) (.seq (RE.chr '1') sep))
  let middle : RE := .seq (RE.rep digit 3) (.seq sep (RE.rep digit 4))
  let area : RE := .seq (RE.opt (RE.chr '(')) (.seq (RE.rep digit 3) (RE.opt (RE.chr ')')))
  .seq country (.seq area (.seq sep middle))

/-- Longest prefix of `l` of length at most `n` accepted by `r`. -/
def longestPre (r : RE) (l : List Char) : Nat → Option (List Char)
  | 0 => if r.nullable then some [] else none
  | n + 1 => if reAccepts r (l.take (n + 1)) then some (l.take (n + 1)) else longestPre r l n

/-- Leftmost match of `r` in `l` (`re.search`): earliest start position wins; at that
position we take the longest match.  Python's engine is leftmost-greedy rather than
leftmost-longest, but a match exists for one scheme iff it exists for the other, and
no claim depends on the exact matched substring. -/
def reSearch (r : RE) : List Char → Option (List Char)
  | [] => if r.nullable then some [] else none
  | c :: t =>
    match longestPre r (c :: t) (t.length + 1) with
    | some m => some m
    | none => reSearch r t

/-- `extract_email` from src/main.py. -/
def extract_email (text : String) : Option String :=
  if text = "" then none else (reSearch emailRE text.data).map String.mk

/-- `extract_phone` from src/main.py. -/
def extract_phone (text : String) : Option String :=
  if text = "" then none else (reSearch phoneRE text.data).map String.mk

/-! ### Data model -/

/-- One search result as produced by `serpapi_search` (name/website/notes). -/
structure Item where
  name : String
  website : String
  notes : String
  deriving DecidableEq

/-- A candidate/lead dict as built inside `run_daily`.  `score` holds
`lead["score"]`; `int(lead.get("score") or 0)` in the source only differs from the
stored field when the key is absent, which the record type cannot express and the
orchestrator never produces. -/
structure Lead where
  niche : String
  name : String
  website : String
  email : Option String
  phone : Option String
  contact_url : Option String
  location : String
  notes : String
  score : Int
  deriving DecidableEq

/-- The criteria record; `dailyQuotas` is the dict as an association list. -/
structure Criteria where
  ownerEmail : String
  niches : List String
  dailyQuotas : List (String × Int)
  geo : String
  mustHave : List String
  avoid : List String
  prioritySignals : List String
  minScore : Int
  deriving DecidableEq

/-- Python truthiness of a string. -/
def truthyS (s : String) : Bool := !(s == "")

/-- Python truthiness of an optional string field. -/
def truthyO : Option String → Bool
  | some s => truthyS s
  | none => false

def DEFAULT_OWNER_EMAIL : String := "demontez@lassiterllc.services"

def DEFAULT_MIN_SCORE : Int := 70

def defaultNiches : List String := ["hvac", "dispensary", "gym"]

def defaultQuotas : List (String × Int) := [("hvac", 10), ("dispensary", 5), ("gym", 5)]

/-- The default criteria returned by `get_criteria` when the store is empty. -/
def default_criteria : Criteria :=
  { ownerEmail := DEFAULT_OWNER_EMAIL, niches := defaultNiches, dailyQuotas := defaultQuotas,
    geo := "United States (nationwide)", mustHave := [], avoid := [], prioritySignals := [],
    minScore := DEFAULT_MIN_SCORE }

def CITY_SEEDS : List String :=
  ["Phoenix AZ", "Dallas TX", "Houston TX", "Atlanta GA", "Charlotte NC",
   "Denver CO", "Las Vegas NV", "Orlando FL", "Tampa FL", "Nashville TN",
   "Columbus OH", "Indianapolis IN", "Kansas City MO", "St. Louis MO",
   "Chicago IL", "Minneapolis MN", "Seattle WA", "Portland OR",
   "San Diego CA", "Los Angeles CA", "San Jose CA", "San Francisco CA",
   "New York NY", "Philadelphia PA", "Boston MA", "Washington DC",
   "Detroit MI", "Cleveland OH", "Pittsburgh PA", "Baltimore MD"]

/-- `build_queries` from src/main.py. -/
def build_queries (niche city : String) : List String :=
  if niche = "hvac" then
    ["HVAC contractor " ++ city ++ " contact",
     "air conditioning repair " ++ city ++ " contact",
     "heating and cooling company " ++ city ++ " contact",
     "HVAC company " ++ city ++ " services contact"]
  else if niche = "dispensary" then
    ["cannabis dispensary " ++ city ++ " contact",
     "dispensary " ++ city ++ " contact us",
     "marijuana dispensary " ++ city ++ " website contact"]
  else if niche = "gym" then
    ["gym " ++ city ++ " contact",
     "fitness center " ++ city ++ " contact us",
     "strength and conditioning gym " ++ city ++ " contact"]
  else [niche ++ " " ++ city ++ " contact"]

/-- The locality rotation of `run_daily` line 317:
`CITY_SEEDS[k:] + CITY_SEEDS[:k]` with `k = day_index % len(CITY_SEEDS)`,
generalized over the list it rotates. -/
def rotate (l : List String) (d : Nat) : List String :=
  l.drop (d % l.length) ++ l.take (d % l.length)

/-! ### Contact-page enrichment (`try_fetch_contact_page`) -/

def isQuoteChar (c : Char) : Bool := c = Char.ofNat 34 || c = Char.ofNat 39

/-- One candidate position for the regex
`href=["\']([^"\']*contact[^"\']*)["\']` (IGNORECASE): the suffix `s` must begin
with `href=` (any case) followed by a quote; the captured body is the run of
non-quote characters after it, which must be terminated by a quote and contain
`contact` case-insensitively. -/
def hrefTokenAt (s : List Char) : Option (List Char) :=
  if (s.take 5).map lowerChar = "href=".data then
    match s.drop 5 with
    | [] => none
    | q :: rest =>
      if isQuoteChar q then
        let body := rest.takeWhile (fun c => !(isQuoteChar c))
        if !(rest.dropWhile (fun c => !(isQuoteChar c))).isEmpty
            && containsSub "contact".data (body.map lowerChar) then some body
        else none
      else none
  else none

/-- Leftmost match of the contact-href regex (`re.search` semantics: first start
position with a successful match wins). -/
def findContactHref : List Char → Option (List Char)
  | [] => none
  | c :: t =>
    match hrefTokenAt (c :: t) with
    | some b => some b
    | none => findContactHref t

/-- Python `website.rstrip("/")`. -/
def rstripSlash (s : String) : String :=
  String.mk ((s.data.reverse.dropWhile (fun c => c = '/')).reverse)

/-- Python `s.startswith(pre)` (structural, so it evaluates by `rfl`/`decide`). -/
def startsWithStr (s pre : String) : Bool := pre.data.isPrefixOf s.data

/-- `try_fetch_contact_page` from src/main.py.  `web` is the page-fetch oracle;
`none` covers the exception and `status_code >= 400` paths. -/
def try_fetch_contact_page (web : String → Option String) (website : String) :
    Option String × Option String × Option String :=
  if website = "" then (none, none, none)
  else
    match web website with
    | none => (none, none, none)
    | some page =>
      let html := String.mk (page.data.take 200000)
      let email := extract_email html
      let phone := extract_phone html
      let contact_url :=
        match findContactHref html.data with
        | none => none
        | some href =>
          if startsWithStr (String.mk href) "http" then some (String.mk href)
          else if startsWithStr (String.mk href) "/" then
            some (rstripSlash website ++ String.mk href)
          else none
      (contact_url, email, phone)

/-! ### Scoring and qualification -/

def BAD_DOMAINS : List String :=
  ["yelp.", "angi.", "homeadvisor.", "thumbtack.", "bbb.", "yellowpages.", "mapquest.",
   "facebook.com"]

/-- The haystack of `score_lead`:
`" ".join([name, website, notes, contact_url or ""]).lower()`. -/
def lead_text (lead : Lead) : List Char :=
  ((lead.name ++ " " ++ lead.website ++ " " ++ lead.notes ++ " " ++
    lead.contact_url.getD "").data).map lowerChar

/-- `if kw and kw.lower() in text` from the keyword loops of `score_lead`. -/
def kwFound (text : List Char) (kw : String) : Bool :=
  truthyS kw && containsSub (kw.data.map lowerChar) text

/-- `score_lead` from src/main.py, as the same sequential accumulation. -/
def score_lead (lead : Lead) (criteria : Criteria) : Int :=
  let text := lead_text lead
  let s0 : Int := 0
  let s1 := if truthyS lead.website then s0 + 25 else s0
  let s2 := if truthyO lead.email then s1 + 25 else s1
  let s3 := if truthyO lead.phone then s2 + 15 else s2
  let s4 := if truthyO lead.contact_url then s3 + 15 else s3
  let s5 := criteria.mustHave.foldl (fun s kw => if kwFound text kw then s + 15 else s) s4
  let s6 := criteria.prioritySignals.foldl (fun s kw => if kwFound text kw then s + 10 else s) s5
  let s7 := criteria.avoid.foldl (fun s kw => if kwFound text kw then s - 60 else s) s6
  if BAD_DOMAINS.any (fun b => containsSub b.data (lead.website.data.map lowerChar)) then s7 - 70
  else s7

/-- `has_contact` inside `qualifies`. -/
def has_contact (lead : Lead) : Bool :=
  truthyO lead.email || truthyO lead.phone || truthyO lead.contact_url

/-- `qualifies` from src/main.py. -/
def qualifies (lead : Lead) (min_score : Int) : Bool :=
  has_contact lead && decide (min_score ≤ lead.score)

/-! ### Persistence (`save_leads`) -/

/-- One row of the sqlite `leads` table (`created_at` dropped: no claim reads it). -/
structure Row where
  niche : String
  name : String
  website : String
  email : Option String
  phone : Option String
  contact_url : Option String
  location : String
  notes : String
  score : Int
  run_date : String
  deriving DecidableEq

def rowOf (lead : Lead) (run_date : String) : Row :=
  { niche := lead.niche, name := lead.name, website := lead.website, email := lead.email,
    phone := lead.phone, contact_url := lead.contact_url, location := lead.location,
    notes := lead.notes, score := lead.score, run_date := run_date }

/-- SQLite `UNIQUE(niche, website, email, run_date)` conflict test for
`INSERT OR IGNORE`: a NULL `email` is distinct from every value, including NULL,
so a row with `email = none` never conflicts. -/
def uniqueConflict (r : Row) (lead : Lead) (run_date : String) : Bool :=
  r.niche == lead.niche && r.website == lead.website && r.run_date == run_date &&
    (match r.email, lead.email with
     | some a, some b => a == b
     | _, _ => false)

/-- `save_leads` from src/main.py: insert-or-ignore each lead in order, counting
the rows actually added. -/
def save_leads (leads : List Lead) (run_date : String) (db : List Row) : Nat × List Row :=
  leads.foldl
    (fun acc lead =>
      if acc.2.any (fun r => uniqueConflict r lead run_date) then acc
      else (acc.1 + 1, acc.2 ++ [rowOf lead run_date]))
    (0, db)

/-! ### The daily run orchestrator (`run_daily`) -/

/-- Candidate construction for one search result inside `run_daily`
(lines 341-360): sniff email/phone from the snippet, fall back to one live page
fetch when both are missing, then score. -/
def build_lead (criteria : Criteria) (web : String → Option String) (niche city : String)
    (item : Item) : Lead :=
  let email0 := extract_email item.notes
  let phone0 := extract_phone item.notes
  let lead0 : Lead :=
    { niche := niche, name := item.name, website := item.website, email := email0,
      phone := phone0, contact_url := none, location := city, notes := item.notes, score := 0 }
  let lead1 :=
    if truthyO email0 || truthyO phone0 then lead0
    else
      let r := try_fetch_contact_page web item.website
      { lead0 with contact_url := r.1,
                   email := if truthyO r.2.1 then r.2.1 else lead0.email,
                   phone := if truthyO r.2.2 then r.2.2 else lead0.phone }
  { lead1 with score := score_lead lead1 criteria }

/-- In-run mutable state of `run_daily`: the shared seen-URL set, the
per-niche result lists (`results_by_niche` as a total function defaulting to `[]`,
matching `results_by_niche.get(n, [])`), and the search-call counter used to
index the effectful search oracle. -/
structure RunState where
  seen : List String
  res : String → List Lead
  calls : Nat

def updRes (res : String → List Lead) (niche : String) (lead : Lead) : String → List Lead :=
  fun n => if n = niche then res n ++ [lead] else res n

def resLen (s : RunState) (niche : String) : Int := ((s.res niche).length : Int)

/-- The `for item in serpapi_search(...)` loop body (lines 335-366): skip empty or
seen URLs, build and score the candidate, record it if it qualifies, and break out
of the item loop once the quota is reached. -/
def procItems (criteria : Criteria) (web : String → Option String) (niche city : String)
    (min_score target : Int) : List Item → RunState → RunState
  | [], s => s
  | item :: rest, s =>
    let norm := normalize_url item.website
    if norm = "" || s.seen.contains norm then
      procItems criteria web niche city min_score target rest s
    else
      let lead := build_lead criteria web niche city item
      if qualifies lead min_score then
        let s1 : RunState := { s with res := updRes s.res niche lead, seen := norm :: s.seen }
        if target ≤ resLen s1 niche then s1
        else procItems criteria web niche city min_score target rest s1
      else procItems criteria web niche city min_score target rest s

/-- The `for q in build_queries(...)` loop: break when the quota is reached,
otherwise make the (uncaught) search call and process its items. -/
def procQueries (criteria : Criteria) (web : String → Option String)
    (search : Nat → String → Except String (List Item)) (niche city : String)
    (min_score target : Int) : List String → RunState → Except String RunState
  | [], s => .ok s
  | q :: rest, s =>
    if target ≤ resLen s niche then .ok s
    else
      match search s.calls q with
      | .error e => .error e
      | .ok items =>
        procQueries criteria web search niche city min_score target rest
          (procItems criteria web niche city min_score target items { s with calls := s.calls + 1 })

/-- The `for city in rotated` loop: break when the quota is reached. -/
def procCities (criteria : Criteria) (web : String → Option String)
    (search : Nat → String → Except String (List Item)) (niche : String)
    (min_score target : Int) : List String → RunState → Except String RunState
  | [], s => .ok s
  | city :: rest, s =>
    if target ≤ resLen s niche then .ok s
    else
      match procQueries criteria web search niche city min_score target
          (build_queries niche city) s with
      | .error e => .error e
      | .ok s1 => procCities criteria web search niche min_score target rest s1

/-- The `for niche in niches` loop: skip niches whose quota is not positive. -/
def procNiches (criteria : Criteria) (web : String → Option String)
    (search : Nat → String → Except String (List Item)) (min_score : Int)
    (quotas : String → Int) (rotated : List String) :
    List String → RunState → Except String RunState
  | [], s => .ok s
  | niche :: rest, s =>
    let target := quotas niche
    if target ≤ 0 then procNiches criteria web search min_score quotas rotated rest s
    else
      match procCities criteria web search niche min_score target rotated s with
      | .error e => .error e
      | .ok s1 => procNiches criteria web search min_score quotas rotated rest s1

/-- `niches = criteria.get("niches") or [...]` (an empty list is falsy). -/
def effNiches (criteria : Criteria) : List String :=
  if criteria.niches = [] then defaultNiches else criteria.niches

def lookupQuota (qs : List (String × Int)) (n : String) : Int :=
  match qs.find? (fun p => p.1 == n) with
  | some p => p.2
  | none => 0

/-- `quotas.get(niche, 0)` after `quotas = criteria.get("dailyQuotas") or {...}`. -/
def effQuotas (criteria : Criteria) (n : String) : Int :=
  lookupQuota (if criteria.dailyQuotas = [] then defaultQuotas else criteria.dailyQuotas) n

/-- `min_score = int(criteria.get("minScore") or DEFAULT_MIN_SCORE)` (0 is falsy). -/
def effMinScore (criteria : Criteria) : Int :=
  if criteria.minScore = 0 then DEFAULT_MIN_SCORE else criteria.minScore

/-- The value returned by `run_daily`; `counts` and `leadsByNiche` are the
dict-as-function views, `dbAfter` the persisted store after `save_leads`. -/
structure RunOut where
  runDate : String
  added : Nat
  counts : String → Nat
  leadsByNiche : String → List Lead
  dbAfter : List Row

/-- `run_daily` from src/main.py. -/
def run_daily (criteria : Criteria) (run_date : String) (day_index : Nat) (db : List Row)
    (web : String → Option String) (search : Nat → String → Except String (List Item)) :
    Except String RunOut :=
  let niches := effNiches criteria
  let min_score := effMinScore criteria
  let rotated := rotate CITY_SEEDS day_index
  match procNiches criteria web search min_score (effQuotas criteria) rotated niches
      { seen := [], res := fun _ => [], calls := 0 } with
  | .error e => .error e
  | .ok s =>
    let all_leads := niches.foldr (fun n acc => s.res n ++ acc) []
    let saved := save_leads all_leads run_date db
    .ok { runDate := run_date, added := saved.1, counts := fun n => (s.res n).length,
          leadsByNiche := s.res, dbAfter := saved.2 }

/-! ### The `setLeadCriteria` webhook branch (lines 466-477) -/

/-- The parameter payload of a `setLeadCriteria` tool call: a key is either absent
(`none`) or supplied with a value, which may be falsy (empty string/list, 0). -/
structure Params where
  ownerEmail : Option String
  niches : Option (List String)
  dailyQuotas : Option (List (String × Int))
  geo : Option (String)
  mustHave : Option (List String)
  avoid : Option (List String)
  prioritySignals : Option (List String)
  minScore : Option Int
  deriving DecidableEq

/-- The `setLeadCriteria` handler: `crit.update(params)` followed by the
falsy-to-default lines for ownerEmail/niches/dailyQuotas/geo/minScore. -/
def setLeadCriteria (prior : Criteria) (p : Params) : Criteria :=
  let c0 : Criteria :=
    { ownerEmail := p.ownerEmail.getD prior.ownerEmail,
      niches := p.niches.getD prior.niches,
      dailyQuotas := p.dailyQuotas.getD prior.dailyQuotas,
      geo := p.geo.getD prior.geo,
      mustHave := p.mustHave.getD prior.mustHave,
      avoid := p.avoid.getD prior.avoid,
      prioritySignals := p.prioritySignals.getD prior.prioritySignals,
      minScore := p.minScore.getD prior.minScore }
  { c0 with
    ownerEmail := if c0.ownerEmail = "" then DEFAULT_OWNER_EMAIL else c0.ownerEmail,
    niches := if c0.niches = [] then defaultNiches else c0.niches,
    dailyQuotas := if c0.dailyQuotas = [] then defaultQuotas else c0.dailyQuotas,
    geo := if c0.geo = "" then "United States (nationwide)" else c0.geo,
    minScore := if c0.minScore = 0 then DEFAULT_MIN_SCORE else c0.minScore }

/-! ## Helper notions for the scoring decomposition -/

/-- The structural-signal part of `score_lead`. -/
def baseScore (lead : Lead) : Int :=
  (if truthyS lead.website then (25 : Int) else 0) + (if truthyO lead.email then 25 else 0) +
    (if truthyO lead.phone then 15 else 0) + (if truthyO lead.contact_url then 15 else 0)

/-- Number of configured must-have keywords found (with the `if kw` guard). -/
def mhCount (lead : Lead) (c : Criteria) : Nat := c.mustHave.countP (kwFound (lead_text lead))

def prCount (lead : Lead) (c : Criteria) : Nat :=
  c.prioritySignals.countP (kwFound (lead_text lead))

def avCount (lead : Lead) (c : Criteria) : Nat := c.avoid.countP (kwFound (lead_text lead))

/-- The aggregator-domain penalty of `score_lead`. -/
def domainPenalty (lead : Lead) : Int :=
  if BAD_DOMAINS.any (fun b => containsSub b.data (lead.website.data.map lowerChar)) then 70
  else 0

lemma foldl_add_count (p : String → Bool) (c : Int) :
    ∀ (l : List String) (a : Int),
      l.foldl (fun s kw => if p kw then s + c else s) a = a + c * (l.countP p : Int) := by
  intro l
  induction l with
  | nil => intro a; simp
  | cons kw t ih =>
    intro a
    by_cases h : p kw = true
    · simp only [List.foldl_cons, h, if_true, ih, List.countP_cons, h]
      push_cast
      ring
    · simp only [List.foldl_cons, h, if_false, ih, List.countP_cons, h]
      simp [h]

lemma foldl_sub_count (p : String → Bool) (c : Int) :
    ∀ (l : List String) (a : Int),
      l.foldl (fun s kw => if p kw then s - c else s) a = a - c * (l.countP p : Int) := by
  intro l
  induction l with
  | nil => intro a; simp
  | cons kw t ih =>
    intro a
    by_cases h : p kw = true
    · simp only [List.foldl_cons, h, if_true, ih, List.countP_cons, h]
      push_cast
      ring
    · simp only [List.foldl_cons, h, if_false, ih, List.countP_cons, h]
      simp [h]

/-- Closed form of `score_lead`: the additive decomposition. -/
lemma score_lead_decomp (lead : Lead) (c : Criteria) :
    score_lead lead c =
      baseScore lead + 15 * (mhCount lead c : Int) + 10 * (prCount lead c : Int)
        - 60 * (avCount lead c : Int) - domainPenalty lead := by
  unfold score_lead baseScore mhCount prCount avCount domainPenalty
  simp only [foldl_add_count, foldl_sub_count]
  split_ifs <;> ring

/-! ## Claim C3: the scoring formula -/

/-- The keyword match exactly as the spec words it: the keyword found as a
case-insensitive substring of the searched text, with no further condition
(so an empty configured keyword is always "found"). -/
def plainFound (text : List Char) (kw : String) : Bool :=
  containsSub (kw.data.map lowerChar) text

/-- The additive sum exactly as claim C3 states it, with the spec's
unconditional per-keyword match `plainFound`. -/
def spec_score (lead : Lead) (c : Criteria) : Int :=
  baseScore lead + 15 * (c.mustHave.countP (plainFound (lead_text lead)) : Int)
    + 10 * (c.prioritySignals.countP (plainFound (lead_text lead)) : Int)
    - 60 * (c.avoid.countP (plainFound (lead_text lead)) : Int)
    - domainPenalty lead

def c3Lead : Lead :=
  { niche := "hvac", name := "", website := "", email := none, phone := none,
    contact_url := none, location := "", notes := "", score := 0 }

def c3Crit : Criteria := { default_criteria with mustHave := [""] }

/-- C3, counterexample: with a configured must-have keyword `""`, the spec's sum
awards +15 (the empty string is a substring of every text) but `score_lead`
skips it (`if kw` guard), so the code's score is not the claimed additive sum. -/
theorem claim3_counterexample : score_lead c3Lead c3Crit ≠ spec_score c3Lead c3Crit := by
  decide

/-- C3 (amended): `score_lead` equals the additive sum
`base + 15·|mustHave found| + 10·|priority found| − 60·|avoid found| − penalty`,
where a *non-empty* configured keyword counts as found when its lowercase form is
a substring of the space-joined lowercase concatenation
name+website+notes+contact_url, and the flat −70 aggregator penalty applies when
the website contains a denylisted substring; no floor or ceiling is applied. -/
theorem claim3_score_additive (lead : Lead) (c : Criteria) :
    score_lead lead c =
      baseScore lead + 15 * (mhCount lead c : Int) + 10 * (prCount lead c : Int)
        - 60 * (avCount lead c : Int) - domainPenalty lead :=
  score_lead_decomp lead c

/-! ## Claim C4: the qualification gate -/

/-- C4: `qualifies` is true iff the candidate has at least one contact method and
its score reaches `min_score`; a contact-free candidate never qualifies however
high its score, and the threshold is inclusive. -/
theorem claim4_qualification_gate (lead : Lead) (min_score : Int) :
    (qualifies lead min_score = true ↔ has_contact lead = true ∧ min_score ≤ lead.score)
    ∧ (has_contact lead = false → qualifies lead min_score = false)
    ∧ (has_contact lead = true → lead.score = min_score → qualifies lead min_score = true) := by
  refine ⟨?_, ?_, ?_⟩
  · simp [qualifies]
  · intro h; simp [qualifies, h]
  · intro h hs; simp [qualifies, h, hs]

def c4Lead : Lead :=
  { niche := "gym", name := "G", website := "", email := none, phone := some "5551234567",
    contact_url := none, location := "", notes := "", score := 50 }

/-- Witness for C4: a candidate with a phone and score exactly at the threshold
qualifies. -/
theorem claim4_witness : qualifies c4Lead 50 = true :=
  (claim4_qualification_gate c4Lead 50).2.2 (by decide) (by decide)

/-! ## Claim C5: the locality rotation -/

lemma rotate_head (l : List String) (d : Nat) (hd : d < l.length) :
    (rotate l d).head? = l[d]? := by
  unfold rotate
  rw [Nat.mod_eq_of_lt hd]
  have hlen : 0 < (l.drop d).length := by
    rw [List.length_drop]; omega
  rw [List.head?_eq_getElem?, List.getElem?_append, if_pos hlen, List.getElem?_drop,
    Nat.add_zero]

lemma rotate_heads (l : List String) :
    (List.range l.length).map (fun d => (rotate l d).head?) = l.map some := by
  apply List.ext_getElem?
  intro i
  by_cases hi : i < l.length
  · rw [List.getElem?_map, List.getElem?_map, List.getElem?_range hi,
      List.getElem?_eq_getElem hi]
    simp only [Option.map_some']
    rw [rotate_head l i hi, List.getElem?_eq_getElem hi]
  · rw [List.getElem?_eq_none, List.getElem?_eq_none]
    · simpa using Nat.le_of_not_lt hi
    · simpa using Nat.le_of_not_lt hi

/-- C5: for a non-empty locality list, the rotation is the left-rotation
`drop k ++ take k` with `k = D mod N`; it has period N in the day ordinal; and
over days `D = 0 .. N-1` every position of the list appears first exactly once
(the list of heads is the original list). -/
theorem claim5_rotation (l : List String) (D : Nat) (h : l ≠ []) :
    rotate l D = l.drop (D % l.length) ++ l.take (D % l.length)
    ∧ rotate l D = rotate l (D + l.length)
    ∧ (List.range l.length).map (fun d => (rotate l d).head?) = l.map some := by
  refine ⟨rfl, ?_, rotate_heads l⟩
  unfold rotate
  rw [Nat.add_mod_right]

/-- Witness for C5 at a concrete list and day ordinal. -/
theorem claim5_witness :
    rotate ["a", "b", "c"] 5
        = (["a", "b", "c"].drop (5 % (["a", "b", "c"] : List String).length)
            ++ ["a", "b", "c"].take (5 % (["a", "b", "c"] : List String).length))
    ∧ rotate ["a", "b", "c"] 5 = rotate ["a", "b", "c"] (5 + (["a", "b", "c"] : List String).length)
    ∧ (List.range (["a", "b", "c"] : List String).length).map
        (fun d => (rotate ["a", "b", "c"] d).head?) = ["a", "b", "c"].map some :=
  claim5_rotation ["a", "b", "c"] 5 (by decide)

/-! ## Claim C6: persistence idempotence (SQLite NULL semantics break it) -/

def c6lead : Lead :=
  { niche := "hvac", name := "Acme Air", website := "http://acme-air.com", email := none,
    phone := some "5551234567", contact_url := none, location := "Phoenix AZ", notes := "",
    score := 80 }

def c6leadEmail : Lead :=
  { c6lead with website := "http://other.com", email := some "a@acme-air.com" }

/-- C6, evaluated at the failing input: re-saving the same single lead whose
`email` is NULL for the same run_date adds a row *again* (`added = 1`, not 0),
because in SQLite a NULL in `UNIQUE(niche, website, email, run_date)` never
conflicts; the third conjunct shows the intended no-op does hold when the email
is present. -/
theorem claim6_null_email_not_idempotent :
    (save_leads [c6lead] "2026-10-12" []).1 = 1
    ∧ (save_leads [c6lead] "2026-10-12" (save_leads [c6lead] "2026-10-12" []).2).1 = 1
    ∧ (save_leads [c6leadEmail] "2026-10-12"
        (save_leads [c6leadEmail] "2026-10-12" []).2).1 = 0 := by
  decide

/-! ## Claim C10: falsy `setLeadCriteria` fields fall back to defaults -/

/-- C10: any of ownerEmail/niches/dailyQuotas/geo/minScore supplied falsy is
replaced by the built-in default; consequently `minScore` can never end up 0 and
`niches` can never end up empty through this operation. -/
theorem claim10_falsy_criteria_defaults (prior : Criteria) (p : Params) :
    (p.ownerEmail = some "" → (setLeadCriteria prior p).ownerEmail = DEFAULT_OWNER_EMAIL)
    ∧ (p.niches = some [] → (setLeadCriteria prior p).niches = defaultNiches)
    ∧ (p.dailyQuotas = some [] → (setLeadCriteria prior p).dailyQuotas = defaultQuotas)
    ∧ (p.geo = some "" → (setLeadCriteria prior p).geo = "United States (nationwide)")
    ∧ (p.minScore = some 0 → (setLeadCriteria prior p).minScore = DEFAULT_MIN_SCORE)
    ∧ (setLeadCriteria prior p).minScore ≠ 0
    ∧ (setLeadCriteria prior p).niches ≠ [] := by
  refine ⟨?_, ?_, ?_, ?_, ?_, ?_, ?_⟩
  · intro h; simp [setLeadCriteria, h]
  · intro h; simp [setLeadCriteria, h]
  · intro h; simp [setLeadCriteria, h]
  · intro h; simp [setLeadCriteria, h]
  · intro h; simp [setLeadCriteria, h]
  · simp only [setLeadCriteria]
    split_ifs with h1 <;> simp_all [DEFAULT_MIN_SCORE]
  · simp only [setLeadCriteria]
    split_ifs with h1 <;> simp_all [defaultNiches]

def c10Params : Params :=
  { ownerEmail := some "", niches := some [], dailyQuotas := some [], geo := some "",
    mustHave := none, avoid := none, prioritySignals := none, minScore := some 0 }

/-- Witness for C10 at a concrete all-falsy update. -/
theorem claim10_witness :
    (setLeadCriteria default_criteria c10Params).ownerEmail = DEFAULT_OWNER_EMAIL
    ∧ (setLeadCriteria default_criteria c10Params).niches = defaultNiches
    ∧ (setLeadCriteria default_criteria c10Params).minScore = DEFAULT_MIN_SCORE :=
  ⟨(claim10_falsy_criteria_defaults default_criteria c10Params).1 rfl,
   (claim10_falsy_criteria_defaults default_criteria c10Params).2.1 rfl,
   (claim10_falsy_criteria_defaults default_criteria c10Params).2.2.2.2.1 rfl⟩

/-! ## Claim C2: search failures are NOT absorbed by `run_daily` -/

lemma build_queries_ne_nil (niche city : String) : build_queries niche city ≠ [] := by
  unfold build_queries
  split_ifs <;> simp

lemma rotate_length (l : List String) (d : Nat) : (rotate l d).length = l.length := by
  by_cases h : l = []
  · subst h; simp [rotate]
  · have hpos : 0 < l.length := List.length_pos.mpr h
    have hlt : d % l.length < l.length := Nat.mod_lt _ hpos
    simp only [rotate, List.length_append, List.length_drop, List.length_take]
    omega

lemma rotate_ne_nil (l : List String) (d : Nat) (h : l ≠ []) : rotate l d ≠ [] := by
  have := rotate_length l d
  intro hc
  rw [hc] at this
  exact h (List.eq_nil_of_length_eq_zero this.symm)

/-- With a search oracle that always raises, the niche loop raises as soon as it
reaches the first niche with a positive quota. -/
lemma procNiches_error (criteria : Criteria) (web : String → Option String) (e : String)
    (min_score : Int) (quotas : String → Int) (rotated : List String) (hrot : rotated ≠ []) :
    ∀ (ns : List String) (s : RunState), (∀ n, s.res n = []) → (∃ n ∈ ns, 0 < quotas n) →
      procNiches criteria web (fun _ _ => .error e) min_score quotas rotated ns s
        = .error e := by
  intro ns
  induction ns with
  | nil => intro s _ hex; simp at hex
  | cons n rest ih =>
    intro s hres hex
    simp only [procNiches]
    by_cases hq : quotas n ≤ 0
    · rw [if_pos hq]
      apply ih s hres
      rcases hex with ⟨m, hm, hmq⟩
      rcases List.mem_cons.mp hm with h1 | h2
      · subst h1; omega
      · exact ⟨m, h2, hmq⟩
    · rw [if_neg hq]
      have hcities :
          procCities criteria web (fun _ _ => .error e) n min_score (quotas n) rotated s
            = .error e := by
        cases rotated with
        | nil => exact absurd rfl hrot
        | cons city rest2 =>
          have hlen : resLen s n = 0 := by simp [resLen, hres n]
          simp only [procCities]
          rw [if_neg (by rw [hlen]; omega)]
          cases hbq : build_queries n city with
          | nil => exact absurd hbq (build_queries_ne_nil n city)
          | cons q qs =>
            simp only [procQueries]
            rw [if_neg (by rw [hlen]; omega)]
      rw [hcities]

/-- C2, counterexample: with the default criteria (first niche `hvac` has quota
10 > 0) and a search oracle that raises, `run_daily` returns the error itself:
the failure is not treated as zero results for that tuple, the loop does not
proceed, and the failure propagates past the orchestrator. -/
theorem claim2_counterexample :
    run_daily default_criteria "2026-10-12" 0 [] (fun _ => none) (fun _ _ => .error "timeout")
      = .error "timeout" := by
  rfl

/-- C2 (amended): an error raised by the search call propagates out of
`run_daily` and aborts the whole run (it is caught only by the webhook layer,
per tool call); here: as soon as some configured niche has a positive quota, a
run whose every search call raises `e` returns `.error e`. -/
theorem claim2_search_error_aborts_run (criteria : Criteria) (run_date : String)
    (day_index : Nat) (db : List Row) (web : String → Option String) (e : String)
    (hq : ∃ n ∈ effNiches criteria, 0 < effQuotas criteria n) :
    run_daily criteria run_date day_index db web (fun _ _ => .error e) = .error e := by
  have hrot : rotate CITY_SEEDS day_index ≠ [] := rotate_ne_nil _ _ (by decide)
  simp only [run_daily]
  rw [procNiches_error criteria web e (effMinScore criteria) (effQuotas criteria)
    (rotate CITY_SEEDS day_index) hrot (effNiches criteria)
    { seen := [], res := fun _ => [], calls := 0 } (fun n => rfl) hq]

/-- Witness for C2 (amended) at a concrete run. -/
theorem claim2_amended_witness :
    run_daily default_criteria "2026-10-12" 5 [] (fun _ => none) (fun _ _ => .error "boom")
      = .error "boom" :=
  claim2_search_error_aborts_run default_criteria "2026-10-12" 5 [] (fun _ => none) "boom"
    (by decide)

/-! ## Claim C8: contact-link extraction and resolution -/

lemma findContactHref_none (l : List Char) (h : findContactHref l = none) :
    ∀ i, hrefTokenAt (l.drop i) = none := by
  induction l with
  | nil => intro i; rw [List.drop_nil]; rfl
  | cons c t ih =>
    intro i
    have h0 : hrefTokenAt (c :: t) = none := by
      cases hh : hrefTokenAt (c :: t) with
      | none => rfl
      | some b => simp [findContactHref, hh] at h
    have ht : findContactHref t = none := by
      simpa [findContactHref, h0] using h
    cases i with
    | zero => simpa using h0
    | succ j => rw [List.drop_succ_cons]; exact ih ht j

lemma findContactHref_first (l b : List Char) (h : findContactHref l = some b) :
    ∃ i, hrefTokenAt (l.drop i) = some b ∧ ∀ j < i, hrefTokenAt (l.drop j) = none := by
  induction l with
  | nil => simp [findContactHref] at h
  | cons c t ih =>
    cases hh : hrefTokenAt (c :: t) with
    | some b2 =>
      have hb : b2 = b := by
        have := h
        simp only [findContactHref, hh] at this
        exact Option.some.inj this
      subst hb
      exact ⟨0, by simpa using hh, by intro j hj; omega⟩
    | none =>
      have ht : findContactHref t = some b := by
        simpa [findContactHref, hh] using h
      obtain ⟨i, hi, hprev⟩ := ih ht
      refine ⟨i + 1, by simpa [List.drop_succ_cons] using hi, ?_⟩
      intro j hj
      cases j with
      | zero => simpa using hh
      | succ j2 => rw [List.drop_succ_cons]; exact hprev j2 (by omega)

lemma hrefTokenAt_contact (s b : List Char) (h : hrefTokenAt s = some b) :
    containsSub "contact".data (b.map lowerChar) = true := by
  unfold hrefTokenAt at h
  by_cases h1 : (s.take 5).map lowerChar = "href=".data
  · rw [if_pos h1] at h
    cases hds : s.drop 5 with
    | nil => rw [hds] at h; simp at h
    | cons q rest =>
      rw [hds] at h
      by_cases h2 : isQuoteChar q = true
      · simp only [h2, if_true] at h
        by_cases h3 :
            (!(rest.dropWhile (fun c => !(isQuoteChar c))).isEmpty
              && containsSub "contact".data
                ((rest.takeWhile (fun c => !(isQuoteChar c))).map lowerChar)) = true
        · rw [if_pos h3] at h
          have hb : rest.takeWhile (fun c => !(isQuoteChar c)) = b := Option.some.inj h
          have h4 := h3
          simp only [Bool.and_eq_true] at h4
          rw [hb] at h4
          exact h4.2
        · rw [if_neg h3] at h; exact absurd h (by simp)
      · simp only [h2] at h
        simp at h
  · rw [if_neg h1] at h
    exact absurd h (by simp)

/-- The resolution target exactly as claim C8 words it: the base website's
scheme+host, i.e. the URL with any path dropped — the scheme up to `:`, the
`://` separator, then the host up to the next `/`. -/
def schemeHost (url : String) : String :=
  let scheme := url.data.takeWhile (fun c => c ≠ ':')
  let host := (url.data.drop (scheme.length + 3)).takeWhile (fun c => c ≠ '/')
  String.mk (scheme ++ ':' :: '/' :: '/' :: host)

def c8webPath : String → Option String := fun _ => some "<a href=\"/contact\">c</a>"

/-- C8, counterexample: for a base website URL that carries a path, the code
resolves a root-relative contact href by concatenating onto the *full* base URL
(`website.rstrip("/") + href`), not onto the base's scheme+host as the claim
states: for base `http://x.com/page` and href `/contact` the code returns
`http://x.com/page/contact`, while the claimed scheme+host resolution yields
`http://x.com/contact`. -/
theorem claim8_counterexample :
    ((try_fetch_contact_page c8webPath "http://x.com/page").1
        = some "http://x.com/page/contact")
    ∧ schemeHost "http://x.com/page" ++ "/contact" = "http://x.com/contact"
    ∧ (try_fetch_contact_page c8webPath "http://x.com/page").1
        ≠ some (schemeHost "http://x.com/page" ++ "/contact") := by
  decide

/-- C8 (amended): for every fetched page, the `contact_url` component of
`try_fetch_contact_page` is determined by the *first* position of the
(truncated) page at which the contact-href pattern matches: an absolute
(`http...`) href passes through unchanged, a root-relative (`/...`) href is
resolved by concatenation onto the FULL base website URL with its trailing
slashes stripped (`website.rstrip("/") + href`) — which coincides with the
claimed scheme+host resolution only when the base URL has no path — any other
href (and the no-match case) yields no contact_url; every matched href contains
`contact` case-insensitively. -/
theorem claim8_contact_link (web : String → Option String) (website html : String)
    (hw : ¬ website = "") (hpage : web website = some html) :
    ((try_fetch_contact_page web website).1 =
      match findContactHref (html.data.take 200000) with
      | none => none
      | some href =>
        if startsWithStr (String.mk href) "http" then some (String.mk href)
        else if startsWithStr (String.mk href) "/" then
          some (rstripSlash website ++ String.mk href)
        else none)
    ∧ (findContactHref (html.data.take 200000) = none →
        ∀ i, hrefTokenAt ((html.data.take 200000).drop i) = none)
    ∧ (∀ b, findContactHref (html.data.take 200000) = some b →
        ∃ i, hrefTokenAt ((html.data.take 200000).drop i) = some b
          ∧ ∀ j < i, hrefTokenAt ((html.data.take 200000).drop j) = none)
    ∧ (∀ b, findContactHref (html.data.take 200000) = some b →
        containsSub "contact".data (b.map lowerChar) = true) := by
  refine ⟨?_, fun h => findContactHref_none _ h, fun b h => findContactHref_first _ b h,
    fun b h => ?_⟩
  · simp only [try_fetch_contact_page, if_neg hw, hpage]
  · obtain ⟨i, hi, _⟩ := findContactHref_first _ b h
    exact hrefTokenAt_contact _ b hi

def c8web : String → Option String := fun _ => some "<a href=\"/Contact-us\">x</a>"

/-- Witness for C8 (amended): a root-relative contact href is resolved by
concatenation onto the full base website URL with trailing slashes stripped. -/
theorem claim8_witness :
    (try_fetch_contact_page c8web "http://x.com//").1 = some "http://x.com/Contact-us" := by
  have h := (claim8_contact_link c8web "http://x.com//" "<a href=\"/Contact-us\">x</a>"
    (by decide) rfl).1
  rw [h]
  rfl

/-! ## Claim C9: keyword monotonicity under notes extension -/

lemma isPrefixOf_extend (n x e : List Char) (h : n.isPrefixOf x = true) :
    n.isPrefixOf (x ++ e) = true := by
  induction n generalizing x with
  | nil => simp [List.isPrefixOf]
  | cons a n' ih =>
    cases x with
    | nil => simp [List.isPrefixOf] at h
    | cons b x' =>
      simp only [List.cons_append, List.isPrefixOf, Bool.and_eq_true] at h ⊢
      exact ⟨h.1, ih x' h.2⟩

lemma containsSub_nil_needle (l : List Char) : containsSub [] l = true := by
  cases l <;> simp [containsSub, List.isPrefixOf]

lemma containsSub_append_left (n x e : List Char) (h : containsSub n x = true) :
    containsSub n (x ++ e) = true := by
  induction x with
  | nil =>
    simp only [containsSub, List.isEmpty_iff] at h
    subst h
    exact containsSub_nil_needle e
  | cons c x' ih =>
    simp only [containsSub, Bool.or_eq_true] at h
    rcases h with h | h
    · simp only [List.cons_append, containsSub, Bool.or_eq_true]
      exact Or.inl (by simpa [List.cons_append] using isPrefixOf_extend n (c :: x') e h)
    · simp only [List.cons_append, containsSub, Bool.or_eq_true]
      exact Or.inr (ih h)

lemma containsSub_append_right (n x b : List Char) (h : containsSub n b = true) :
    containsSub n (x ++ b) = true := by
  induction x with
  | nil => simpa using h
  | cons c x' ih =>
    simp only [List.cons_append, containsSub, Bool.or_eq_true]
    exact Or.inr ih

lemma isPrefixOf_nospace (n : List Char) : ∀ (x y : List Char), Char.ofNat 32 ∉ n →
    n.isPrefixOf (x ++ Char.ofNat 32 :: y) = true → n.isPrefixOf x = true := by
  induction n with
  | nil => intro x y _ _; simp [List.isPrefixOf]
  | cons a n' ih =>
    intro x y hn h
    cases x with
    | nil =>
      simp only [List.nil_append, List.isPrefixOf, Bool.and_eq_true, beq_iff_eq] at h
      exact absurd (h.1 ▸ List.mem_cons_self a n') hn
    | cons b x' =>
      simp only [List.cons_append, List.isPrefixOf, Bool.and_eq_true] at h ⊢
      exact ⟨h.1, ih x' y (fun hm => hn (List.mem_cons_of_mem a hm)) h.2⟩

/-- A space-free needle found in `x ++ " " ++ y` is found entirely in `x` or
entirely in `" " ++ y`: no occurrence can straddle the separating space. -/
lemma containsSub_split (n x y : List Char) (hn : Char.ofNat 32 ∉ n)
    (h : containsSub n (x ++ Char.ofNat 32 :: y) = true) :
    containsSub n x = true ∨ containsSub n (Char.ofNat 32 :: y) = true := by
  induction x with
  | nil => exact Or.inr (by simpa using h)
  | cons c x' ih =>
    simp only [List.cons_append, containsSub, Bool.or_eq_true] at h
    rcases h with h | h
    · left
      have := isPrefixOf_nospace n (c :: x') y hn (by simpa [List.cons_append] using h)
      simp only [containsSub, Bool.or_eq_true]
      exact Or.inl this
    · rcases ih h with h1 | h1
      · left
        simp only [containsSub, Bool.or_eq_true]
        exact Or.inr h1
      · exact Or.inr h1

lemma space_data : (" " : String).data = [Char.ofNat 32] := rfl

lemma lowerChar_space : lowerChar (Char.ofNat 32) = Char.ofNat 32 := rfl

lemma lead_text_decomp (lead : Lead) :
    lead_text lead
      = ((lead.name ++ " " ++ lead.website ++ " " ++ lead.notes).data.map lowerChar)
          ++ Char.ofNat 32 :: ((lead.contact_url.getD "").data.map lowerChar) := by
  simp [lead_text, String.data_append, List.map_append, space_data, lowerChar_space]

lemma lead_text_extend (lead : Lead) (ext : String) :
    lead_text { lead with notes := lead.notes ++ ext }
      = ((lead.name ++ " " ++ lead.website ++ " " ++ lead.notes).data.map lowerChar)
          ++ (ext.data.map lowerChar)
          ++ Char.ofNat 32 :: ((lead.contact_url.getD "").data.map lowerChar) := by
  simp [lead_text, String.data_append, List.map_append, space_data, lowerChar_space]

lemma kwFound_extend (lead : Lead) (ext kw : String)
    (hk : Char.ofNat 32 ∉ kw.data.map lowerChar)
    (h : kwFound (lead_text lead) kw = true) :
    kwFound (lead_text { lead with notes := lead.notes ++ ext }) kw = true := by
  unfold kwFound at h ⊢
  rw [Bool.and_eq_true] at h ⊢
  refine ⟨h.1, ?_⟩
  have hc := h.2
  rw [lead_text_decomp] at hc
  rw [lead_text_extend]
  rcases containsSub_split _ _ _ hk hc with h1 | h1
  · exact containsSub_append_left _ _ _ (containsSub_append_left _ _ _ h1)
  · exact containsSub_append_right _ _ _ h1

lemma countP_le_of_imp (l : List String) (p q : String → Bool)
    (h : ∀ a ∈ l, p a = true → q a = true) : l.countP p ≤ l.countP q := by
  induction l with
  | nil => simp
  | cons a t ih =>
    have ht := ih (fun b hb => h b (List.mem_cons_of_mem a hb))
    rw [List.countP_cons, List.countP_cons]
    by_cases hp : p a = true
    · rw [hp, h a (List.mem_cons_self a t) hp]
      omega
    · have : (if p a = true then 1 else 0) = 0 := by simp [hp]
      rw [this]
      omega

def c9Lead : Lead :=
  { niche := "", name := "", website := "", email := none, phone := none, contact_url := none,
    location := "", notes := "", score := 0 }

def c9Crit : Criteria := { default_criteria with mustHave := ["a"], avoid := ["ab"] }

/-- C9, counterexample: with must-have `"a"` and avoid `"ab"`, extending the
empty notes with `"ab"` — a text that contains the configured must-have keyword
`"a"` — strictly DECREASES the score (the same extension also completes the
avoid keyword, and −60 outweighs +15), contradicting "never decreases". -/
theorem claim9_counterexample :
    containsSub ("a".data.map lowerChar) ("ab".data.map lowerChar) = true
    ∧ score_lead { c9Lead with notes := c9Lead.notes ++ "ab" } c9Crit
        < score_lead c9Lead c9Crit := by
  decide

/-- C9 (amended): appending text to a candidate's notes is monotone
*category-wise*, provided no configured keyword contains a space (an occurrence
of a keyword with a space can straddle the join boundary between notes and the
following field and be destroyed by the extension): the matched must-have,
priority and avoid counts never decrease; hence the score never decreases when
the extension completes no new avoid keyword, and never increases when it
completes no new must-have or priority keyword.  Monotonicity of the total
score without these provisos is refuted by `claim9_counterexample`. -/
theorem claim9_keyword_monotonicity (lead : Lead) (c : Criteria) (ext : String)
    (hsp : ∀ kw ∈ c.mustHave ++ c.prioritySignals ++ c.avoid,
      Char.ofNat 32 ∉ kw.data.map lowerChar) :
    mhCount lead c ≤ mhCount { lead with notes := lead.notes ++ ext } c
    ∧ prCount lead c ≤ prCount { lead with notes := lead.notes ++ ext } c
    ∧ avCount lead c ≤ avCount { lead with notes := lead.notes ++ ext } c
    ∧ (avCount { lead with notes := lead.notes ++ ext } c = avCount lead c →
        score_lead lead c ≤ score_lead { lead with notes := lead.notes ++ ext } c)
    ∧ (mhCount { lead with notes := lead.notes ++ ext } c = mhCount lead c →
        prCount { lead with notes := lead.notes ++ ext } c = prCount lead c →
        score_lead { lead with notes := lead.notes ++ ext } c ≤ score_lead lead c) := by
  have hmh : mhCount lead c ≤ mhCount { lead with notes := lead.notes ++ ext } c := by
    apply countP_le_of_imp
    intro kw hkw
    exact kwFound_extend lead ext kw (hsp kw (by simp [hkw]))
  have hpr : prCount lead c ≤ prCount { lead with notes := lead.notes ++ ext } c := by
    apply countP_le_of_imp
    intro kw hkw
    exact kwFound_extend lead ext kw (hsp kw (by simp [hkw]))
  have hav : avCount lead c ≤ avCount { lead with notes := lead.notes ++ ext } c := by
    apply countP_le_of_imp
    intro kw hkw
    exact kwFound_extend lead ext kw (hsp kw (by simp [hkw]))
  have hbase : baseScore { lead with notes := lead.notes ++ ext } = baseScore lead := rfl
  have hpen : domainPenalty { lead with notes := lead.notes ++ ext } = domainPenalty lead := rfl
  refine ⟨hmh, hpr, hav, ?_, ?_⟩
  · intro hEq
    rw [score_lead_decomp, score_lead_decomp, hbase, hpen, hEq]
    omega
  · intro hEq1 hEq2
    rw [score_lead_decomp, score_lead_decomp, hbase, hpen, hEq1, hEq2]
    omega

def c9CritW : Criteria :=
  { default_criteria with mustHave := ["roof"], avoid := ["spam"], prioritySignals := ["pro"] }

/-- Witness for C9 (amended) at concrete space-free keywords. -/
theorem claim9_witness :
    mhCount c9Lead c9CritW ≤ mhCount { c9Lead with notes := c9Lead.notes ++ "x" } c9CritW
    ∧ prCount c9Lead c9CritW ≤ prCount { c9Lead with notes := c9Lead.notes ++ "x" } c9CritW
    ∧ avCount c9Lead c9CritW ≤ avCount { c9Lead with notes := c9Lead.notes ++ "x" } c9CritW
    ∧ (avCount { c9Lead with notes := c9Lead.notes ++ "x" } c9CritW = avCount c9Lead c9CritW →
        score_lead c9Lead c9CritW
          ≤ score_lead { c9Lead with notes := c9Lead.notes ++ "x" } c9CritW)
    ∧ (mhCount { c9Lead with notes := c9Lead.notes ++ "x" } c9CritW = mhCount c9Lead c9CritW →
        prCount { c9Lead with notes := c9Lead.notes ++ "x" } c9CritW = prCount c9Lead c9CritW →
        score_lead { c9Lead with notes := c9Lead.notes ++ "x" } c9CritW
          ≤ score_lead c9Lead c9CritW) :=
  claim9_keyword_monotonicity c9Lead c9CritW "x" (by decide)

/-! ## Machinery for claims C1 and C7: invariants of the orchestrator loops -/

lemma updRes_self (res : String → List Lead) (niche : String) (lead : Lead) :
    updRes res niche lead niche = res niche ++ [lead] := by
  simp [updRes]

lemma updRes_other (res : String → List Lead) (niche m : String) (lead : Lead)
    (h : m ≠ niche) : updRes res niche lead m = res m := by
  simp [updRes, h]

lemma contains_iff_mem (l : List String) (x : String) : l.contains x = true ↔ x ∈ l :=
  List.elem_iff

lemma build_lead_website (criteria : Criteria) (web : String → Option String)
    (niche city : String) (it : Item) :
    (build_lead criteria web niche city it).website = it.website := by
  simp only [build_lead]
  split <;> rfl

/-- `procItems` never makes a search call, only ever touches the current niche's
list, and only ever grows the seen set. -/
lemma procItems_basic (criteria : Criteria) (web : String → Option String)
    (niche city : String) (min_score target : Int) (items : List Item) (s : RunState) :
    ((procItems criteria web niche city min_score target items s).calls = s.calls)
    ∧ (∀ m, m ≠ niche →
        (procItems criteria web niche city min_score target items s).res m = s.res m)
    ∧ (∀ u, u ∈ s.seen →
        u ∈ (procItems criteria web niche city min_score target items s).seen) := by
  induction items generalizing s with
  | nil => simp [procItems]
  | cons it rest ih =>
    simp only [procItems]
    split_ifs with h1 h2 h3
    · exact ih s
    · refine ⟨rfl, ?_, ?_⟩
      · intro m hm; exact updRes_other _ _ _ _ hm
      · intro u hu; exact List.mem_cons_of_mem _ hu
    · set s1 : RunState :=
        { s with
          res := updRes s.res niche (build_lead criteria web niche city it),
          seen := normalize_url it.website :: s.seen } with hs1
      obtain ⟨hc, hr, hu⟩ := ih s1
      refine ⟨hc, ?_, ?_⟩
      · intro m hm
        rw [hr m hm, hs1]
        exact updRes_other _ _ _ _ hm
      · intro u huu
        exact hu u (List.mem_cons_of_mem _ huu)
    · exact ih s

/-- Entered below the quota, the item loop never ends above it. -/
lemma procItems_len_le (criteria : Criteria) (web : String → Option String)
    (niche city : String) (min_score target : Int) (items : List Item) (s : RunState)
    (hlt : resLen s niche < target) :
    resLen (procItems criteria web niche city min_score target items s) niche ≤ target := by
  induction items generalizing s with
  | nil => simpa [procItems] using le_of_lt hlt
  | cons it rest ih =>
    simp only [procItems]
    split_ifs with h1 h2 h3
    · exact ih s hlt
    · have : resLen
          { s with
            res := updRes s.res niche (build_lead criteria web niche city it),
            seen := normalize_url it.website :: s.seen } niche
          = resLen s niche + 1 := by
        simp [resLen, updRes_self]
      rw [this] at h3 ⊢
      omega
    · apply ih
      have : resLen
          { s with
            res := updRes s.res niche (build_lead criteria web niche city it),
            seen := normalize_url it.website :: s.seen } niche
          = resLen s niche + 1 := by
        simp [resLen, updRes_self]
      rw [this] at h3 ⊢
      omega
    · exact ih s hlt

/-- Once the quota is reached, the query loop exits immediately. -/
lemma procQueries_stop (criteria : Criteria) (web : String → Option String)
    (search : Nat → String → Except String (List Item)) (niche city : String)
    (min_score target : Int) (qs : List String) (s : RunState)
    (h : target ≤ resLen s niche) :
    procQueries criteria web search niche city min_score target qs s = .ok s := by
  cases qs with
  | nil => rfl
  | cons q rest => simp [procQueries, if_pos h]

/-- Once the quota is reached, the city loop exits immediately. -/
lemma procCities_stop (criteria : Criteria) (web : String → Option String)
    (search : Nat → String → Except String (List Item)) (niche : String)
    (min_score target : Int) (cities : List String) (s : RunState)
    (h : target ≤ resLen s niche) :
    procCities criteria web search niche min_score target cities s = .ok s := by
  cases cities with
  | nil => rfl
  | cons c rest => simp [procCities, if_pos h]

/-! ### The shared seen-set invariant (claim C7) -/

/-- Every recorded lead's normalized URL is in the shared seen set. -/
def SeenCovers (s : RunState) : Prop :=
  ∀ n, ∀ a ∈ s.res n, normalize_url a.website ∈ s.seen

/-- Normalized website URLs are pairwise distinct within each niche's list and
across any two distinct niches. -/
def ResDistinct (res : String → List Lead) : Prop :=
  (∀ n, (res n).Pairwise (fun a b => normalize_url a.website ≠ normalize_url b.website))
  ∧ (∀ n1 n2, n1 ≠ n2 → ∀ a ∈ res n1, ∀ b ∈ res n2,
      normalize_url a.website ≠ normalize_url b.website)

def RunInv (s : RunState) : Prop := SeenCovers s ∧ ResDistinct s.res

lemma runInv_insert (s : RunState) (niche : String) (lead : Lead) (norm : String)
    (hnorm : normalize_url lead.website = norm) (hnew : norm ∉ s.seen) (hinv : RunInv s) :
    RunInv { s with res := updRes s.res niche lead, seen := norm :: s.seen } := by
  obtain ⟨hcov, hpair, hcross⟩ := hinv
  refine ⟨?_, ?_, ?_⟩
  · intro n a ha
    dsimp only at ha ⊢
    by_cases hn : n = niche
    · rw [hn, updRes_self] at ha
      rcases List.mem_append.mp ha with ha | ha
      · exact List.mem_cons_of_mem _ (hcov niche a ha)
      · have hal : a = lead := by simpa using ha
        subst hal
        rw [hnorm]
        exact List.mem_cons_self _ _
    · rw [updRes_other _ _ _ _ hn] at ha
      exact List.mem_cons_of_mem _ (hcov n a ha)
  · intro n
    dsimp only
    by_cases hn : n = niche
    · rw [hn, updRes_self, List.pairwise_append]
      refine ⟨hpair niche, List.pairwise_singleton _ _, ?_⟩
      intro a ha b hb
      have hbl : b = lead := by simpa using hb
      subst hbl
      rw [hnorm]
      intro hcon
      exact hnew (hcon ▸ hcov niche a ha)
    · rw [updRes_other _ _ _ _ hn]
      exact hpair n
  · intro n1 n2 hne a ha b hb
    dsimp only at ha hb ⊢
    by_cases h1 : n1 = niche
    · rw [h1] at ha hne
      rw [updRes_self] at ha
      rw [updRes_other _ _ _ _ (Ne.symm hne)] at hb
      rcases List.mem_append.mp ha with ha | ha
      · exact hcross niche n2 hne a ha b hb
      · have hal : a = lead := by simpa using ha
        subst hal
        rw [hnorm]
        intro hcon
        exact hnew (hcon ▸ hcov n2 b hb)
    · by_cases h2 : n2 = niche
      · rw [h2] at hb hne
        rw [updRes_other _ _ _ _ h1] at ha
        rw [updRes_self] at hb
        rcases List.mem_append.mp hb with hb | hb
        · exact hcross n1 niche hne a ha b hb
        · have hbl : b = lead := by simpa using hb
          subst hbl
          rw [hnorm]
          intro hcon
          exact hnew (hcon.symm ▸ hcov n1 a ha)
      · rw [updRes_other _ _ _ _ h1] at ha
        rw [updRes_other _ _ _ _ h2] at hb
        exact hcross n1 n2 hne a ha b hb

/-- The item loop preserves the seen/distinctness invariant. -/
lemma procItems_inv (criteria : Criteria) (web : String → Option String)
    (niche city : String) (min_score target : Int) (items : List Item) (s : RunState)
    (hinv : RunInv s) :
    RunInv (procItems criteria web niche city min_score target items s) := by
  induction items generalizing s with
  | nil => simpa [procItems] using hinv
  | cons it rest ih =>
    simp only [procItems]
    split_ifs with h1 h2 h3
    · exact ih s hinv
    · have hnew : normalize_url it.website ∉ s.seen := by
        intro hmem
        exact h1 (by simp [contains_iff_mem, hmem])
      exact runInv_insert s niche _ _
        (congrArg normalize_url (build_lead_website criteria web niche city it)) hnew hinv
    · have hnew : normalize_url it.website ∉ s.seen := by
        intro hmem
        exact h1 (by simp [contains_iff_mem, hmem])
      exact ih _ (runInv_insert s niche _ _
        (congrArg normalize_url (build_lead_website criteria web niche city it)) hnew hinv)
    · exact ih s hinv

/-- Properties of a successful pass through the query loop: the call counter only
grows, other niches' lists are untouched, the seen set only grows, the current
niche's list stays within the quota, and the run invariant is preserved. -/
lemma procQueries_ok (criteria : Criteria) (web : String → Option String)
    (search : Nat → String → Except String (List Item)) (niche city : String)
    (min_score target : Int) (qs : List String) :
    ∀ s s', procQueries criteria web search niche city min_score target qs s = .ok s' →
      (s.calls ≤ s'.calls)
      ∧ (∀ m, m ≠ niche → s'.res m = s.res m)
      ∧ (∀ u, u ∈ s.seen → u ∈ s'.seen)
      ∧ (resLen s niche ≤ target → resLen s' niche ≤ target)
      ∧ (RunInv s → RunInv s') := by
  induction qs with
  | nil =>
    intro s s' h
    obtain rfl : s = s' := by simpa [procQueries] using h
    exact ⟨le_refl _, fun _ _ => rfl, fun _ hu => hu, fun hl => hl, fun hi => hi⟩
  | cons q rest ih =>
    intro s s' h
    simp only [procQueries] at h
    split_ifs at h with hstop
    · obtain rfl : s = s' := by simpa using h
      exact ⟨le_refl _, fun _ _ => rfl, fun _ hu => hu, fun hl => hl, fun hi => hi⟩
    · cases hsearch : search s.calls q with
      | error e => rw [hsearch] at h; simp at h
      | ok items =>
        rw [hsearch] at h
        obtain ⟨hic, hir, hiu⟩ := procItems_basic criteria web niche city min_score target
          items { s with calls := s.calls + 1 }
        obtain ⟨qc, qr, qu, qlen, qinv⟩ := ih _ s' h
        refine ⟨?_, ?_, ?_, ?_, ?_⟩
        · rw [hic] at qc
          exact le_trans (Nat.le_succ _) qc
        · intro m hm
          rw [qr m hm, hir m hm]
        · intro u hu
          exact qu u (hiu u hu)
        · intro _
          apply qlen
          exact procItems_len_le criteria web niche city min_score target items _
            (by simpa [resLen] using lt_of_not_le hstop)
        · intro hinv
          exact qinv (procItems_inv criteria web niche city min_score target items _ hinv)

/-- The analogous properties for a successful pass through the city loop. -/
lemma procCities_ok (criteria : Criteria) (web : String → Option String)
    (search : Nat → String → Except String (List Item)) (niche : String)
    (min_score target : Int) (cities : List String) :
    ∀ s s', procCities criteria web search niche min_score target cities s = .ok s' →
      (s.calls ≤ s'.calls)
      ∧ (∀ m, m ≠ niche → s'.res m = s.res m)
      ∧ (∀ u, u ∈ s.seen → u ∈ s'.seen)
      ∧ (resLen s niche ≤ target → resLen s' niche ≤ target)
      ∧ (RunInv s → RunInv s') := by
  induction cities with
  | nil =>
    intro s s' h
    obtain rfl : s = s' := by simpa [procCities] using h
    exact ⟨le_refl _, fun _ _ => rfl, fun _ hu => hu, fun hl => hl, fun hi => hi⟩
  | cons city rest ih =>
    intro s s' h
    simp only [procCities] at h
    split_ifs at h with hstop
    · obtain rfl : s = s' := by simpa using h
      exact ⟨le_refl _, fun _ _ => rfl, fun _ hu => hu, fun hl => hl, fun hi => hi⟩
    · cases hq : procQueries criteria web search niche city min_score target
          (build_queries niche city) s with
      | error e => rw [hq] at h; simp at h
      | ok s1 =>
        rw [hq] at h
        obtain ⟨qc, qr, qu, qlen, qinv⟩ :=
          procQueries_ok criteria web search niche city min_score target _ s s1 hq
        obtain ⟨cc, cr, cu, clen, cinv⟩ := ih s1 s' h
        refine ⟨le_trans qc cc, ?_, ?_, ?_, ?_⟩
        · intro m hm
          rw [cr m hm, qr m hm]
        · intro u hu
          exact cu u (qu u hu)
        · intro hl
          exact clen (qlen hl)
        · intro hinv
          exact cinv (qinv hinv)

/-- The analogous properties for a successful pass through the niche loop,
together with the global per-niche quota bound. -/
lemma procNiches_ok (criteria : Criteria) (web : String → Option String)
    (search : Nat → String → Except String (List Item)) (min_score : Int)
    (quotas : String → Int) (rotated : List String) (ns : List String) :
    ∀ s s', procNiches criteria web search min_score quotas rotated ns s = .ok s' →
      (RunInv s → RunInv s')
      ∧ ((∀ n, (s.res n).length ≤ (quotas n).toNat) →
          ∀ n, (s'.res n).length ≤ (quotas n).toNat) := by
  induction ns with
  | nil =>
    intro s s' h
    obtain rfl : s = s' := by simpa [procNiches] using h
    exact ⟨fun hi => hi, fun hb => hb⟩
  | cons n rest ih =>
    intro s s' h
    simp only [procNiches] at h
    split_ifs at h with hq
    · exact ih s s' h
    · cases hcit : procCities criteria web search n min_score (quotas n) rotated s with
      | error e => rw [hcit] at h; simp at h
      | ok s1 =>
        rw [hcit] at h
        obtain ⟨_, cr, _, clen, cinv⟩ :=
          procCities_ok criteria web search n min_score (quotas n) rotated s s1 hcit
        obtain ⟨rinv, rbound⟩ := ih s1 s' h
        refine ⟨fun hi => rinv (cinv hi), ?_⟩
        intro hb
        apply rbound
        intro m
        by_cases hm : m = n
        · subst hm
          have hq2 : 0 < quotas m := by omega
          have h1 : resLen s m ≤ quotas m := by
            have := hb m
            simp only [resLen]
            omega
          have h2 := clen h1
          simp only [resLen] at h2
          omega
        · rw [cr m hm]
          exact hb m

/-! ## Claim C7: one shared seen-set for the whole run -/

/-- C7: whenever `run_daily` returns, the normalized website URLs of the leads in
`leadsByNiche` are pairwise distinct within each niche and across any two
distinct niches — the shared seen set prevents a URL recorded for one niche from
being re-used by any other niche in the same run. -/
theorem claim7_cross_niche_dedup (criteria : Criteria) (run_date : String) (day_index : Nat)
    (db : List Row) (web : String → Option String)
    (search : Nat → String → Except String (List Item)) (out : RunOut)
    (h : run_daily criteria run_date day_index db web search = .ok out) :
    (∀ n, (out.leadsByNiche n).Pairwise
        (fun a b => normalize_url a.website ≠ normalize_url b.website))
    ∧ (∀ n1 n2, n1 ≠ n2 → ∀ a ∈ out.leadsByNiche n1, ∀ b ∈ out.leadsByNiche n2,
        normalize_url a.website ≠ normalize_url b.website) := by
  simp only [run_daily] at h
  cases hproc : procNiches criteria web search (effMinScore criteria) (effQuotas criteria)
      (rotate CITY_SEEDS day_index) (effNiches criteria)
      { seen := [], res := fun _ => [], calls := 0 } with
  | error e => rw [hproc] at h; simp at h
  | ok s =>
    rw [hproc] at h
    simp only [Except.ok.injEq] at h
    have hres : out.leadsByNiche = s.res := by rw [← h]
    have hinv0 : RunInv { seen := [], res := fun _ => ([] : List Lead), calls := 0 } := by
      refine ⟨fun n a ha => absurd ha (List.not_mem_nil a), fun n => List.Pairwise.nil, ?_⟩
      intro n1 n2 _ a ha
      exact absurd ha (List.not_mem_nil a)
    obtain ⟨rinv, _⟩ := procNiches_ok criteria web search (effMinScore criteria)
      (effQuotas criteria) (rotate CITY_SEEDS day_index) (effNiches criteria) _ s hproc
    obtain ⟨_, hpair, hcross⟩ := rinv hinv0
    rw [hres]
    exact ⟨hpair, hcross⟩

def c7crit : Criteria := { default_criteria with niches := ["x"], dailyQuotas := [("x", 1)] }

def c7out : RunOut :=
  { runDate := "2026-10-12", added := 0, counts := fun _ => 0, leadsByNiche := fun _ => [],
    dbAfter := [] }

/-- Witness for C7 at a concrete run (search oracle returns no results). -/
theorem claim7_witness :
    (∀ n, (c7out.leadsByNiche n).Pairwise
        (fun a b => normalize_url a.website ≠ normalize_url b.website))
    ∧ (∀ n1 n2, n1 ≠ n2 → ∀ a ∈ c7out.leadsByNiche n1, ∀ b ∈ c7out.leadsByNiche n2,
        normalize_url a.website ≠ normalize_url b.website) :=
  claim7_cross_niche_dedup c7crit "2026-10-12" 3 [] (fun _ => none) (fun _ _ => .ok [])
    c7out rfl

/-! ### Exact quota fill under an ideal search source (claim C1) -/

/-- Provenance of the seen set: every seen URL is the normalized URL of some item
of an earlier call (`k2 < k`), or of an earlier item (`i2 < j`) of call `k`. -/
def SeenFrom (f : Nat → Nat → String) (k j : Nat) (seen : List String) : Prop :=
  ∀ u ∈ seen, ∃ k2 i2, u = f k2 i2 ∧ (k2 < k ∨ (k2 = k ∧ i2 < j))

/-- Provenance: every seen URL comes from a call strictly before `k`. -/
def SeenBelow (f : Nat → Nat → String) (k : Nat) (seen : List String) : Prop :=
  ∀ u ∈ seen, ∃ k2 i2, u = f k2 i2 ∧ k2 < k

/-- An idealized search source, as in claim C1's "unlimited stream of distinct
qualifying candidates": every call succeeds with at least `B` items, every item
qualifies once processed, and the normalized URLs of all items of all calls are
pairwise distinct (witnessed by the injective labelling `f`) and non-empty. -/
structure GoodSearch (criteria : Criteria) (web : String → Option String) (min_score : Int)
    (f : Nat → Nat → String) (B : Nat)
    (search : Nat → String → Except String (List Item)) : Prop where
  ok : ∀ k q, ∃ items, search k q = .ok items
  big : ∀ k q items, search k q = .ok items → B ≤ items.length
  qual : ∀ k q items, search k q = .ok items → ∀ it ∈ items, ∀ niche city,
    qualifies (build_lead criteria web niche city it) min_score = true
  normAt : ∀ k q items, search k q = .ok items → ∀ i (h : i < items.length),
    normalize_url ((items.get ⟨i, h⟩).website) = f k i
  inj : ∀ k i k2 i2, f k i = f k2 i2 → k = k2 ∧ i = i2
  ne : ∀ k i, f k i ≠ ""

/-- Processing the items of call `k`: when every item qualifies and is globally
fresh, the niche's list fills to exactly the quota (or absorbs all items). -/
lemma procItems_exact (criteria : Criteria) (web : String → Option String)
    (niche city : String) (min_score target : Int) (f : Nat → Nat → String)
    (hinj : ∀ k i k2 i2, f k i = f k2 i2 → k = k2 ∧ i = i2) (hne : ∀ k i, f k i ≠ "")
    (k : Nat) (items : List Item) :
    ∀ (j : Nat) (s : RunState),
      (∀ it ∈ items, qualifies (build_lead criteria web niche city it) min_score = true) →
      (∀ i (h : i < items.length), normalize_url ((items.get ⟨i, h⟩).website) = f k (j + i)) →
      SeenFrom f k j s.seen →
      resLen s niche < target →
      (resLen (procItems criteria web niche city min_score target items s) niche
          = min target (resLen s niche + items.length)
        ∧ SeenFrom f k (j + items.length)
            (procItems criteria web niche city min_score target items s).seen
        ∧ (procItems criteria web niche city min_score target items s).calls = s.calls
        ∧ (∀ m, m ≠ niche →
            (procItems criteria web niche city min_score target items s).res m = s.res m)) := by
  induction items with
  | nil =>
    intro j s _ _ hseen hlt
    refine ⟨?_, ?_, rfl, fun _ _ => rfl⟩
    · simp only [procItems, List.length_nil, Nat.cast_zero, add_zero]
      omega
    · simpa [procItems] using hseen
  | cons it rest ih =>
    intro j s hqual hnormAt hseen hlt
    have norm0 : normalize_url it.website = f k j := by
      have h0 := hnormAt 0 (by simp)
      simpa using h0
    have fresh : f k j ∉ s.seen := by
      intro hmem
      obtain ⟨k2, i2, hu, hcase⟩ := hseen _ hmem
      obtain ⟨hk, hj⟩ := hinj k2 i2 k j hu.symm
      omega
    simp only [procItems]
    split_ifs with h1 h2 h3
    · exfalso
      rw [norm0] at h1
      rcases Bool.or_eq_true_iff.mp h1 with hc | hc
      · exact hne k j (of_decide_eq_true hc)
      · exact fresh ((contains_iff_mem _ _).mp hc)
    · have hlen1 : resLen
          { s with
            res := updRes s.res niche (build_lead criteria web niche city it),
            seen := normalize_url it.website :: s.seen } niche
          = resLen s niche + 1 := by
        simp [resLen, updRes_self]
      refine ⟨?_, ?_, rfl, fun m hm => updRes_other _ _ _ _ hm⟩
      · rw [hlen1]
        rw [hlen1] at h3
        simp only [List.length_cons]
        push_cast
        omega
      · intro u hu
        dsimp only at hu
        rcases List.mem_cons.mp hu with hu | hu
        · refine ⟨k, j, ?_, Or.inr ⟨rfl, ?_⟩⟩
          · rw [hu, norm0]
          · simp only [List.length_cons]
            omega
        · obtain ⟨k2, i2, hueq, hcase⟩ := hseen _ hu
          refine ⟨k2, i2, hueq, ?_⟩
          rcases hcase with h | h
          · exact Or.inl h
          · refine Or.inr ⟨h.1, ?_⟩
            simp only [List.length_cons]
            omega
    · set s1 : RunState :=
        { s with
          res := updRes s.res niche (build_lead criteria web niche city it),
          seen := normalize_url it.website :: s.seen } with hs1
      have hlen1 : resLen s1 niche = resLen s niche + 1 := by
        simp [hs1, resLen, updRes_self]
      have hlt1 : resLen s1 niche < target := by
        rw [hlen1]
        rw [hlen1] at h3
        omega
      have hseen1 : SeenFrom f k (j + 1) s1.seen := by
        intro u hu
        rw [hs1] at hu
        dsimp only at hu
        rcases List.mem_cons.mp hu with hu | hu
        · refine ⟨k, j, ?_, Or.inr ⟨rfl, by omega⟩⟩
          rw [hu, norm0]
        · obtain ⟨k2, i2, hueq, hcase⟩ := hseen _ hu
          refine ⟨k2, i2, hueq, ?_⟩
          rcases hcase with h | h
          · exact Or.inl h
          · exact Or.inr ⟨h.1, by omega⟩
      have hqual1 : ∀ it2 ∈ rest,
          qualifies (build_lead criteria web niche city it2) min_score = true :=
        fun it2 hm => hqual it2 (List.mem_cons_of_mem _ hm)
      have hnorm1 : ∀ i (h : i < rest.length),
          normalize_url ((rest.get ⟨i, h⟩).website) = f k ((j + 1) + i) := by
        intro i h
        have h2 := hnormAt (i + 1) (by simp; omega)
        have harith : j + (i + 1) = (j + 1) + i := by omega
        rw [harith] at h2
        exact h2
      obtain ⟨ihlen, ihseen, ihcalls, ihres⟩ := ih (j + 1) s1 hqual1 hnorm1 hseen1 hlt1
      refine ⟨?_, ?_, ?_, ?_⟩
      · rw [ihlen, hlen1]
        simp only [List.length_cons]
        push_cast
        omega
      · have heq : j + (rest.length + 1) = (j + 1) + rest.length := by omega
        simp only [List.length_cons]
        rw [heq]
        exact ihseen
      · rw [ihcalls, hs1]
      · intro m hm
        rw [ihres m hm, hs1]
        exact updRes_other _ _ _ _ hm
    · exfalso
      rw [hqual it (List.mem_cons_self _ _)] at h2
      exact h2 rfl

/-- Under the ideal search source, a non-empty query list fills the niche to
exactly its quota with the very first call. -/
lemma procQueries_exact (criteria : Criteria) (web : String → Option String)
    (search : Nat → String → Except String (List Item)) (niche city : String)
    (min_score target : Int) (f : Nat → Nat → String) (B : Nat)
    (hgood : GoodSearch criteria web min_score f B search) (qs : List String) (s : RunState)
    (hqs : qs ≠ []) (hseen : SeenBelow f s.calls s.seen) (hlt : resLen s niche < target)
    (hB : target ≤ (B : Int)) :
    ∃ s', procQueries criteria web search niche city min_score target qs s = .ok s'
      ∧ resLen s' niche = target
      ∧ SeenBelow f s'.calls s'.seen
      ∧ s.calls ≤ s'.calls
      ∧ (∀ m, m ≠ niche → s'.res m = s.res m) := by
  cases qs with
  | nil => exact absurd rfl hqs
  | cons q rest =>
    obtain ⟨items, hitems⟩ := hgood.ok s.calls q
    have hseen0 : SeenFrom f s.calls 0 ({ s with calls := s.calls + 1 } : RunState).seen := by
      intro u hu
      obtain ⟨k2, i2, hueq, hk⟩ := hseen u hu
      exact ⟨k2, i2, hueq, Or.inl hk⟩
    have hqual : ∀ it ∈ items,
        qualifies (build_lead criteria web niche city it) min_score = true :=
      fun it hm => hgood.qual s.calls q items hitems it hm niche city
    have hnormAt : ∀ i (h : i < items.length),
        normalize_url ((items.get ⟨i, h⟩).website) = f s.calls (0 + i) := by
      intro i h
      rw [Nat.zero_add]
      exact hgood.normAt s.calls q items hitems i h
    obtain ⟨hlen, hseenf, hcalls, hres⟩ := procItems_exact criteria web niche city min_score
      target f hgood.inj hgood.ne s.calls items 0 ({ s with calls := s.calls + 1 } : RunState)
      hqual hnormAt hseen0 hlt
    have hlenB : resLen (procItems criteria web niche city min_score target items
        { s with calls := s.calls + 1 }) niche = target := by
      have hbig := hgood.big s.calls q items hitems
      rw [hlen]
      have h0 : (0 : Int) ≤ resLen { s with calls := s.calls + 1 } niche := by
        simp [resLen]
      omega
    have hseenB : SeenBelow f
        (procItems criteria web niche city min_score target items
          { s with calls := s.calls + 1 }).calls
        (procItems criteria web niche city min_score target items
          { s with calls := s.calls + 1 }).seen := by
      intro u hu
      obtain ⟨k2, i2, hueq, hcase⟩ := hseenf u hu
      refine ⟨k2, i2, hueq, ?_⟩
      rw [hcalls]
      dsimp only
      omega
    simp only [procQueries]
    rw [if_neg (not_le.mpr hlt), hitems]
    dsimp only
    rw [procQueries_stop criteria web search niche city min_score target rest _
      (le_of_eq hlenB.symm)]
    refine ⟨_, rfl, hlenB, hseenB, ?_, fun m hm => hres m hm⟩
    rw [hcalls]
    dsimp only
    omega

/-- Under the ideal search source, a non-empty city list fills the niche to
exactly its quota. -/
lemma procCities_exact (criteria : Criteria) (web : String → Option String)
    (search : Nat → String → Except String (List Item)) (niche : String)
    (min_score target : Int) (f : Nat → Nat → String) (B : Nat)
    (hgood : GoodSearch criteria web min_score f B search) (cities : List String) (s : RunState)
    (hc : cities ≠ []) (hseen : SeenBelow f s.calls s.seen) (hlt : resLen s niche < target)
    (hB : target ≤ (B : Int)) :
    ∃ s', procCities criteria web search niche min_score target cities s = .ok s'
      ∧ resLen s' niche = target
      ∧ SeenBelow f s'.calls s'.seen
      ∧ s.calls ≤ s'.calls
      ∧ (∀ m, m ≠ niche → s'.res m = s.res m) := by
  cases cities with
  | nil => exact absurd rfl hc
  | cons city rest =>
    obtain ⟨s1, hq, hlen, hseen1, hcalls, hres⟩ := procQueries_exact criteria web search
      niche city min_score target f B hgood (build_queries niche city) s
      (build_queries_ne_nil _ _) hseen hlt hB
    simp only [procCities]
    rw [if_neg (not_le.mpr hlt), hq]
    dsimp only
    rw [procCities_stop criteria web search niche min_score target rest s1
      (le_of_eq hlen.symm)]
    exact ⟨s1, rfl, hlen, hseen1, hcalls, hres⟩

/-- Under the ideal search source, every niche with a positive quota ends the
niche loop with exactly its quota of leads. -/
lemma procNiches_exact (criteria : Criteria) (web : String → Option String)
    (search : Nat → String → Except String (List Item)) (min_score : Int)
    (quotas : String → Int) (rotated : List String) (f : Nat → Nat → String) (B : Nat)
    (hgood : GoodSearch criteria web min_score f B search) (hrot : rotated ≠ [])
    (ns : List String) :
    ∀ s, SeenBelow f s.calls s.seen →
      (∀ n ∈ ns, (quotas n).toNat ≤ B) →
      (∀ n ∈ ns, resLen s n = 0 ∨ resLen s n = quotas n) →
      ∃ s', procNiches criteria web search min_score quotas rotated ns s = .ok s'
        ∧ (∀ n ∈ ns, 0 < quotas n → resLen s' n = quotas n)
        ∧ (∀ n, n ∉ ns → s'.res n = s.res n) := by
  induction ns with
  | nil =>
    intro s _ _ _
    exact ⟨s, rfl, by simp, fun _ _ => rfl⟩
  | cons n rest ih =>
    intro s hseen hBq hpre
    simp only [procNiches]
    split_ifs with hq
    · obtain ⟨s', heq, hexact, hframe⟩ := ih s hseen
        (fun m hm => hBq m (List.mem_cons_of_mem _ hm))
        (fun m hm => hpre m (List.mem_cons_of_mem _ hm))
      refine ⟨s', heq, ?_, ?_⟩
      · intro m hm hq2
        rcases List.mem_cons.mp hm with h | h
        · subst h; omega
        · exact hexact m h hq2
      · intro m hm
        exact hframe m (fun hmem => hm (List.mem_cons_of_mem _ hmem))
    · rcases hpre n (List.mem_cons_self _ _) with h0 | hqn
      · have hlt : resLen s n < quotas n := by omega
        have hB : quotas n ≤ (B : Int) := by
          have := hBq n (List.mem_cons_self _ _)
          omega
        obtain ⟨s1, hcit, hlen1, hseen1, _, hres1⟩ := procCities_exact criteria web search
          n min_score (quotas n) f B hgood rotated s hrot hseen hlt hB
        rw [hcit]
        dsimp only
        have hpre1 : ∀ m ∈ rest, resLen s1 m = 0 ∨ resLen s1 m = quotas m := by
          intro m hm
          by_cases hmn : m = n
          · subst hmn
            exact Or.inr hlen1
          · have heqr : resLen s1 m = resLen s m := by
              simp [resLen, hres1 m hmn]
            rw [heqr]
            exact hpre m (List.mem_cons_of_mem _ hm)
        obtain ⟨s', hrest, hexact, hframe⟩ := ih s1 hseen1
          (fun m hm => hBq m (List.mem_cons_of_mem _ hm)) hpre1
        refine ⟨s', hrest, ?_, ?_⟩
        · intro m hm hq2
          rcases List.mem_cons.mp hm with h | h
          · subst h
            by_cases hmem : m ∈ rest
            · exact hexact m hmem hq2
            · have heqr : resLen s' m = resLen s1 m := by
                simp [resLen, hframe m hmem]
              rw [heqr]
              exact hlen1
          · exact hexact m h hq2
        · intro m hm
          have hm1 : m ∉ rest := fun hmem => hm (List.mem_cons_of_mem _ hmem)
          have hm2 : m ≠ n := fun hc => hm (hc ▸ List.mem_cons_self _ _)
          rw [hframe m hm1, hres1 m hm2]
      · rw [procCities_stop criteria web search n min_score (quotas n) rotated s
          (le_of_eq hqn.symm)]
        dsimp only
        obtain ⟨s', hrest, hexact, hframe⟩ := ih s hseen
          (fun m hm => hBq m (List.mem_cons_of_mem _ hm))
          (fun m hm => hpre m (List.mem_cons_of_mem _ hm))
        refine ⟨s', hrest, ?_, ?_⟩
        · intro m hm hq2
          rcases List.mem_cons.mp hm with h | h
          · subst h
            by_cases hmem : m ∈ rest
            · exact hexact m hmem hq2
            · have heqr : resLen s' m = resLen s m := by
                simp [resLen, hframe m hmem]
              rw [heqr]
              exact hqn
          · exact hexact m h hq2
        · intro m hm
          exact hframe m (fun hmem => hm (List.mem_cons_of_mem _ hmem))

/-! ## Claim C1: quota exactness and the universal quota bound -/

/-- C1: (first part) under a search source supplying an unlimited stream of
distinct qualifying candidates — every call succeeds with at least `B` items,
enough for every quota, all qualifying, with globally distinct non-empty
normalized URLs — `run_daily` returns exactly the quota for every configured
niche with a positive quota; (second part) for ANY search source whatsoever, no
niche's result list ever exceeds its configured quota. -/
theorem claim1_quota (criteria : Criteria) (run_date : String) (day_index : Nat)
    (db : List Row) (web : String → Option String)
    (search : Nat → String → Except String (List Item)) (f : Nat → Nat → String) (B : Nat)
    (hgood : GoodSearch criteria web (effMinScore criteria) f B search)
    (hB : ∀ n ∈ effNiches criteria, (effQuotas criteria n).toNat ≤ B) :
    (∃ out, run_daily criteria run_date day_index db web search = .ok out
      ∧ ∀ n ∈ effNiches criteria, 0 < effQuotas criteria n →
          ((out.counts n : Int) = effQuotas criteria n
            ∧ ((out.leadsByNiche n).length : Int) = effQuotas criteria n))
    ∧ (∀ (search2 : Nat → String → Except String (List Item)) (out2 : RunOut),
        run_daily criteria run_date day_index db web search2 = .ok out2 →
        ∀ n, (out2.leadsByNiche n).length ≤ (effQuotas criteria n).toNat) := by
  constructor
  · have hrot : rotate CITY_SEEDS day_index ≠ [] := rotate_ne_nil _ _ (by decide)
    obtain ⟨s', hproc, hexact, _⟩ := procNiches_exact criteria web search
      (effMinScore criteria) (effQuotas criteria) (rotate CITY_SEEDS day_index) f B hgood hrot
      (effNiches criteria) { seen := [], res := fun _ => [], calls := 0 }
      (fun u hu => absurd hu (List.not_mem_nil u)) hB
      (fun n _ => Or.inl (by simp [resLen]))
    simp only [run_daily]
    rw [hproc]
    dsimp only
    refine ⟨_, rfl, ?_⟩
    intro n hn hq
    have h1 := hexact n hn hq
    simp only [resLen] at h1
    exact ⟨h1, h1⟩
  · intro search2 out2 h
    simp only [run_daily] at h
    cases hproc2 : procNiches criteria web search2 (effMinScore criteria)
        (effQuotas criteria) (rotate CITY_SEEDS day_index) (effNiches criteria)
        { seen := [], res := fun _ => [], calls := 0 } with
    | error e => rw [hproc2] at h; simp at h
    | ok s =>
      rw [hproc2] at h
      simp only [Except.ok.injEq] at h
      obtain ⟨_, hbound⟩ := procNiches_ok criteria web search2 (effMinScore criteria)
        (effQuotas criteria) (rotate CITY_SEEDS day_index) (effNiches criteria) _ s hproc2
      have hres : out2.leadsByNiche = s.res := by rw [← h]
      rw [hres]
      exact hbound (fun n => by simp)

/-! ### A concrete ideal search source, witnessing C1's hypotheses -/

/-- Globally injective URL labels: `"aa...a"` of length `pair k i + 1`. -/
def wf (k i : Nat) : String := String.mk (List.replicate (Nat.pair k i + 1) 'a')

def wItems (k : Nat) : List Item :=
  (List.range 2).map (fun i => { name := "Biz", website := wf k i, notes := "e@x.co" })

def wSearch : Nat → String → Except String (List Item) := fun k _ => .ok (wItems k)

def wCrit : Criteria :=
  { ownerEmail := "", niches := ["hvac"], dailyQuotas := [("hvac", 2)], geo := "",
    mustHave := [], avoid := [], prioritySignals := [], minScore := 50 }

lemma wf_ne (k i : Nat) : wf k i ≠ "" := by
  intro h
  have h2 := congrArg String.data h
  simp [wf, List.replicate] at h2

lemma wf_inj (k i k2 i2 : Nat) (h : wf k i = wf k2 i2) : k = k2 ∧ i = i2 := by
  have h2 := congrArg String.data h
  simp only [wf] at h2
  have h3 := congrArg List.length h2
  simp only [List.length_replicate] at h3
  have h4 : Nat.pair k i = Nat.pair k2 i2 := by omega
  exact Nat.pair_eq_pair.mp h4

lemma dropWhile_rep (p : Char → Bool) (c : Char) (hp : p c = false) (m : Nat) :
    (List.replicate m c).dropWhile p = List.replicate m c := by
  cases m with
  | zero => simp
  | succ m2 => simp [List.replicate, List.dropWhile_cons, hp]

lemma takeWhile_rep (p : Char → Bool) (c : Char) (hp : p c = true) (m : Nat) :
    (List.replicate m c).takeWhile p = List.replicate m c := by
  induction m with
  | zero => simp
  | succ m2 ih => simp [List.replicate, List.takeWhile_cons, hp, ih]

lemma normalize_wf (k i : Nat) : normalize_url (wf k i) = wf k i := by
  simp only [normalize_url, wf, stripChars, cutFrom]
  rw [dropWhile_rep _ _ (by decide), List.reverse_replicate, dropWhile_rep _ _ (by decide),
    List.reverse_replicate, takeWhile_rep _ _ (by decide), takeWhile_rep _ _ (by decide),
    List.map_replicate]
  rfl

lemma mem_of_isPrefixOf (n : List Char) :
    ∀ l, n.isPrefixOf l = true → ∀ x ∈ n, x ∈ l := by
  induction n with
  | nil => intro l _ x hx; simp at hx
  | cons a n2 ih =>
    intro l h x hx
    cases l with
    | nil => simp [List.isPrefixOf] at h
    | cons b l2 =>
      simp only [List.isPrefixOf, Bool.and_eq_true, beq_iff_eq] at h
      rcases List.mem_cons.mp hx with hx | hx
      · rw [hx, h.1]
        exact List.mem_cons_self _ _
      · exact List.mem_cons_of_mem _ (ih l2 h.2 x hx)

lemma mem_of_containsSub (needle : List Char) :
    ∀ hay, containsSub needle hay = true → ∀ x ∈ needle, x ∈ hay := by
  intro hay
  induction hay with
  | nil =>
    intro h x hx
    simp only [containsSub, List.isEmpty_iff] at h
    subst h
    simp at hx
  | cons c t ih =>
    intro h x hx
    simp only [containsSub, Bool.or_eq_true] at h
    rcases h with h | h
    · exact mem_of_isPrefixOf needle (c :: t) h x hx
    · exact List.mem_cons_of_mem _ (ih h x hx)

lemma containsSub_replicate_false (needle : List Char) (m : Nat) (c x : Char)
    (hx : x ∈ needle) (hxc : x ≠ c) : containsSub needle (List.replicate m c) = false := by
  by_contra hcon
  have h : containsSub needle (List.replicate m c) = true := by
    cases hb : containsSub needle (List.replicate m c)
    · exact absurd hb hcon
    · rfl
  have := mem_of_containsSub needle (List.replicate m c) h x hx
  exact hxc (List.eq_of_mem_replicate this)

lemma wItems_eq (k : Nat) :
    wItems k = [{ name := "Biz", website := wf k 0, notes := "e@x.co" },
      { name := "Biz", website := wf k 1, notes := "e@x.co" }] := by
  rfl

def wLead0 (k i : Nat) (niche city : String) : Lead :=
  { niche := niche, name := "Biz", website := wf k i, email := some "e@x.co", phone := none,
    contact_url := none, location := city, notes := "e@x.co", score := 0 }

lemma wqual (k i : Nat) (niche city : String) :
    qualifies (build_lead wCrit (fun _ => none) niche city
      { name := "Biz", website := wf k i, notes := "e@x.co" }) 50 = true := by
  have hemail : extract_email "e@x.co" = some "e@x.co" := by decide
  have hphone : extract_phone "e@x.co" = none := by decide
  have htr : truthyS (wf k i) = true := by
    have hne : (wf k i == "") = false := beq_eq_false_iff_ne.mpr (wf_ne k i)
    simp [truthyS, hne]
  have hlow : lowerChar 'a' = 'a' := by decide
  have hrep : (wf k i).data.map lowerChar = List.replicate (Nat.pair k i + 1) 'a' := by
    simp [wf, List.map_replicate, hlow]
  have hbad : (BAD_DOMAINS.any fun b => containsSub b.data ((wf k i).data.map lowerChar))
      = false := by
    rw [hrep]
    have hall : ∀ b ∈ BAD_DOMAINS,
        containsSub b.data (List.replicate (Nat.pair k i + 1) 'a') = false := by
      intro b hb
      fin_cases hb <;> exact containsSub_replicate_false _ _ _ '.' (by decide) (by decide)
    simp only [List.any_eq_false]
    intro b hb
    simp [hall b hb]
  have hlead : build_lead wCrit (fun _ => none) niche city
      { name := "Biz", website := wf k i, notes := "e@x.co" }
      = { wLead0 k i niche city with score := score_lead (wLead0 k i niche city) wCrit } := by
    simp [build_lead, hemail, hphone, truthyO, truthyS, wLead0]
  have hsc : score_lead (wLead0 k i niche city) wCrit = 50 := by
    simp [score_lead, wCrit, wLead0, hbad, htr, truthyO, truthyS, wf_ne k i]
  rw [hlead, hsc]
  simp [qualifies, has_contact, truthyO, truthyS, wLead0]

/-- The concrete oracle `wSearch` satisfies all of C1's hypotheses. -/
lemma wSearch_good : GoodSearch wCrit (fun _ => none) (effMinScore wCrit) wf 2 wSearch := by
  refine ⟨?_, ?_, ?_, ?_, ?_, ?_⟩
  · intro k q
    exact ⟨wItems k, rfl⟩
  · intro k q items h
    have hi := Except.ok.inj h
    subst hi
    simp [wItems]
  · intro k q items h it hit niche city
    have hi := Except.ok.inj h
    subst hi
    simp only [wItems, List.mem_map, List.mem_range] at hit
    obtain ⟨i, _, rfl⟩ := hit
    have hms : effMinScore wCrit = 50 := by decide
    rw [hms]
    exact wqual k i niche city
  · intro k q items h i hlen
    have hi := Except.ok.inj h
    subst hi
    rcases i with _ | (_ | n)
    · exact normalize_wf k 0
    · exact normalize_wf k 1
    · exfalso
      simp only [wItems, List.length_map, List.length_range] at hlen
      omega
  · exact fun k i k2 i2 h => wf_inj k i k2 i2 h
  · exact wf_ne

/-- Witness for C1 at the concrete ideal source `wSearch` (niche `hvac`,
quota 2, minimum score 50). -/
theorem claim1_witness :
    (∃ out, run_daily wCrit "2026-10-12" 0 [] (fun _ => none) wSearch = .ok out
      ∧ ∀ n ∈ effNiches wCrit, 0 < effQuotas wCrit n →
          ((out.counts n : Int) = effQuotas wCrit n
            ∧ ((out.leadsByNiche n).length : Int) = effQuotas wCrit n))
    ∧ (∀ (search2 : Nat → String → Except String (List Item)) (out2 : RunOut),
        run_daily wCrit "2026-10-12" 0 [] (fun _ => none) search2 = .ok out2 →
        ∀ n, (out2.leadsByNiche n).length ≤ (effQuotas wCrit n).toNat) :=
  claim1_quota wCrit "2026-10-12" 0 [] (fun _ => none) wSearch wf 2 wSearch_good (by decide)
